import Mathlib

/-!
Shallow embedding of the loxido bytecode interpreter (chunk.rs, vm.rs,
allocator.rs, closure.rs, compiler.rs, main.rs) and proofs about its
documented behaviour.

Modelling conventions:
* Heap handles (`Reference<T>` in allocator.rs) are indices into per-kind
  heap lists; `deref` of an index is list lookup.  The source keeps all
  objects in one dynamically typed vector, but nothing proved here
  compares handles of different kinds, so typed heaps are an equivalent
  presentation.
* The VM value stack is a `List Value` with index 0 the bottom of the
  stack, exactly like the `Vec<Value>` in vm.rs: `push` appends at the
  end, `pop` removes the last element, `peek n` reads index `len - 1 - n`.
* Lox numbers are `f64` in the source; they are embedded as exact
  rationals.  Nothing proved here depends on rounding behaviour.
* `HashMap` tables are association lists with at most one entry per key;
  table iteration order is never observable in the modelled operations.
* Operations that would panic in the source on an invariant violation
  (popping an empty stack, dereferencing a dangling handle) are modelled
  with `Option` or guarded by explicit hypotheses.
-/

namespace Loxido

set_option maxRecDepth 4000

/-- Heap handle: the index field of `Reference<T>` (allocator.rs). -/
abbrev Ref := Nat

/-- The `Value` enum of chunk.rs: a tagged sum of primitives and handles. -/
inductive Value where
  | nil
  | bool (b : Bool)
  | number (n : Rat)
  | string (h : Ref)
  | function (h : Ref)
  | closure (h : Ref)
  | classRef (h : Ref)
  | instanceRef (h : Ref)
  | boundMethod (h : Ref)
  | nativeFunction (id : Nat)
deriving DecidableEq, Repr

/-- The `Value::is_falsey` method of chunk.rs: `Nil` is falsey, `Bool(b)`
is falsey when `b` is false, everything else is truthy. -/
def Value.is_falsey : Value → Bool
  | .nil => true
  | .bool b => !b
  | _ => false

/-- The `Value` enum of the early standalone interpreter in main.rs
(only `Nil`, `Bool` and `Number` exist there). -/
inductive MainValue where
  | nil
  | bool (b : Bool)
  | number (n : Rat)
deriving DecidableEq, Repr

/-- The `Value::is_falsy` method of main.rs: `Nil` and every `Number` are
falsey there, and `Bool(b)` is falsey when `b` is false. -/
def MainValue.is_falsy : MainValue → Bool
  | .nil => true
  | .number _ => true
  | .bool b => !b

/-- The `LoxError` enum of main.rs. -/
inductive MainLoxError where
  | compileError
  | runtimeError
deriving DecidableEq, Repr

/-- The exit code chosen by the final `match` of `run_file` in main.rs:
`Ok(_)` exits with 65 and any error exits with 70. -/
def run_file_exit : Except MainLoxError Unit → Nat
  | .ok _ => 65
  | .error _ => 70

/-- The whole of `run_file` in main.rs: a file that cannot be read exits
with 74 before interpreting; otherwise the interpretation result is mapped
to an exit code by `run_file_exit`. -/
def run_file_code (read : Except Unit String)
    (interp : String → Except MainLoxError Unit) : Nat :=
  match read with
  | .error _ => 74
  | .ok code => run_file_exit (interp code)

/-- Outcome of `main` in main.rs: start the REPL or exit with a code. -/
inductive CliOutcome where
  | repl
  | exitWith (code : Nat)
deriving DecidableEq, Repr

/-- The `match args.len()` of `main` in main.rs.  `argc` counts the
program name plus the positional arguments, as `env::args` does; with one
positional argument the process exits with whatever `run_file` chose
(passed here as `fileExit`). -/
def main_dispatch (argc : Nat) (fileExit : Nat) : CliOutcome :=
  match argc with
  | 1 => .repl
  | 2 => .exitWith fileExit
  | _ => .exitWith 64

/-- The `Chunk::add_constant` method (chunk.rs): push the value and return
its index.  The pool itself is never bounds-checked. -/
def add_constant (constants : List Value) (v : Value) : List Value × Nat :=
  (constants ++ [v], constants.length)

/-- Result of `Parser::make_constant` (compiler.rs): the byte index placed
into the instruction, whether "Too many constants in one chunk." was
reported, and the resulting constant pool. -/
structure MakeConstantOut where
  index : Nat
  errorReported : Bool
  constants : List Value
deriving DecidableEq, Repr

/-- The `Parser::make_constant` method (compiler.rs): add the constant,
then convert the index with `u8::try_from`, which succeeds exactly when
the index is at most 255; on failure report the compile error and emit
index 0. -/
def make_constant (constants : List Value) (v : Value) : MakeConstantOut :=
  let p := add_constant constants v
  if p.2 ≤ 255 then ⟨p.2, false, p.1⟩ else ⟨0, true, p.1⟩

/-- Stack push (vm.rs `Vm::push`): plain `Vec::push`, no bounds check. -/
def push (stack : List Value) (v : Value) : List Value := stack ++ [v]

/-- Stack pop (vm.rs `Vm::pop`): remove and return the last element; the
source panics on an empty stack, modelled here as `none`. -/
def popValue (stack : List Value) : Option (Value × List Value) :=
  match stack.getLast? with
  | some v => some (v, stack.dropLast)
  | none => none

/-- The string-relevant part of `Allocator` (allocator.rs): the object
vector restricted to its `String` cells, and the intern table mapping
contents to the handle.  `free_slots` is only refilled by the collector,
which does not run inside the operations modelled here, so `alloc` always
appends at the end of the object vector. -/
structure StringAllocator where
  objects : List String
  strings : List (String × Ref)
deriving DecidableEq, Repr

/-- The intern-table lookup half of `Allocator::intern`:
`self.strings.get(&name)`. -/
def StringAllocator.lookup (a : StringAllocator) (s : String) : Option Ref :=
  (a.strings.find? (fun p => p.1 == s)).map (fun p => p.2)

/-- `Allocator::alloc` for a string object: record the cell and return the
handle (the cell's index). -/
def StringAllocator.allocString (a : StringAllocator) (s : String) :
    Ref × StringAllocator :=
  (a.objects.length, ⟨a.objects ++ [s], a.strings⟩)

/-- `Allocator::intern` (allocator.rs lines 279-287): return the existing
handle when the contents are already present, else allocate a new string
cell and record it in the table. -/
def StringAllocator.intern (a : StringAllocator) (s : String) :
    Ref × StringAllocator :=
  match a.lookup s with
  | some r => (r, a)
  | none =>
    let p := a.allocString s
    (p.1, ⟨p.2.objects, p.2.strings ++ [(s, p.1)]⟩)

/-- `Allocator::deref` for a string handle. -/
def StringAllocator.deref (a : StringAllocator) (r : Ref) : String :=
  (a.objects.get? r).getD ""

/-- Result of one execution of the `Add` arm of `Vm::run`. -/
inductive AddResult where
  | ok (alloc : StringAllocator) (stack : List Value)
  | runtimeError (alloc : StringAllocator) (stack : List Value) (msg : String)
deriving DecidableEq, Repr

/-- The `Instruction::Add` arm of `Vm::run` (vm.rs lines 139-162): pop `b`
(top of stack) then `a`; two numbers add; two strings concatenate (the
contents of `a` then the contents of `b`) and the result is interned; for
any other pair the operands are pushed back and the runtime error
"Operands must be two numbers or two strings." is raised. -/
def runAdd (alloc : StringAllocator) (stack : List Value) : Option AddResult :=
  match popValue stack with
  | none => none
  | some (b, s1) =>
    match popValue s1 with
    | none => none
    | some (a, s2) =>
      match a, b with
      | .number x, .number y => some (.ok alloc (push s2 (.number (x + y))))
      | .string ha, .string hb =>
        let p := alloc.intern (alloc.deref ha ++ alloc.deref hb)
        some (.ok p.2 (push s2 (.string p.1)))
      | _, _ =>
        some (.runtimeError alloc (push (push s2 a) b)
          ("Operands must be two numbers or two strings."))

/-- A single-quote character, as a one-character string. -/
def squote : String := String.mk [Char.ofNat 39]

/-- The runtime error message built by the `GetGlobal`/`SetGlobal` arms of
`Vm::run` for an undefined variable name. -/
def undefinedVariableMsg (name : String) : String :=
  "Undefined variable " ++ squote ++ name ++ squote ++ "."

/-- `HashMap::get` on a `Table` (chunk.rs `Table`). -/
def tableGet (t : List (Ref × Value)) (k : Ref) : Option Value :=
  (t.find? (fun p => p.1 == k)).map (fun p => p.2)

/-- `HashMap::insert` on a `Table`: replace the value of an existing key
in place and return the previous value, or append a new entry and return
`none`. -/
def tableInsert : List (Ref × Value) → Ref → Value → Option Value × List (Ref × Value)
  | [], k, v => (none, [(k, v)])
  | (k2, v2) :: rest, k, v =>
    if k2 = k then (some v2, (k, v) :: rest)
    else
      let p := tableInsert rest k v
      (p.1, (k2, v2) :: p.2)

/-- `HashMap::remove` on a `Table`. -/
def tableRemove (t : List (Ref × Value)) (k : Ref) : List (Ref × Value) :=
  t.filter (fun p => p.1 != k)

/-- Result of one execution of the `SetGlobal` arm of `Vm::run`: the
globals table afterwards, the stack afterwards, and the runtime error
message if one was raised. -/
structure SetGlobalOut where
  globals : List (Ref × Value)
  stack : List Value
  error : Option String
deriving DecidableEq, Repr

/-- The `Instruction::SetGlobal` arm of `Vm::run` (vm.rs lines 338-347):
peek the value and insert it under the name; when the insert reports that
the name was not previously present, remove the just-inserted entry again
and raise the undefined-variable error.  The value is peeked, not popped,
so the stack is unchanged in every case. -/
def runSetGlobal (alloc : StringAllocator) (globals : List (Ref × Value))
    (stack : List Value) (name : Ref) : Option SetGlobalOut :=
  match stack.getLast? with
  | none => none
  | some value =>
    let p := tableInsert globals name value
    match p.1 with
    | some _ => some ⟨p.2, stack, none⟩
    | none =>
      some ⟨tableRemove p.2 name, stack,
        some (undefinedVariableMsg (alloc.deref name))⟩

/-- The `LoxClass` struct (objects.rs): name handle and methods table. -/
structure LoxClass where
  name : Ref
  methods : List (Ref × Value)
deriving DecidableEq, Repr

/-- `Allocator::deref` for a class handle. -/
def derefClass (heap : List LoxClass) (r : Ref) : LoxClass :=
  (heap.get? r).getD ⟨0, []⟩

/-- The `Instruction::Inherit` arm of `Vm::run` (vm.rs lines 272-283):
with the subclass at stack depth 0 and the superclass at depth 1, clone
the superclass's methods table into the subclass's methods table and pop
the subclass; when the peeked pair is not two classes, raise the runtime
error "Superclass must be a class.".  (Peeking a stack of fewer than two
values panics in the source: `none` here.) -/
def runInherit (heap : List LoxClass) (stack : List Value) :
    Option (Except String (List LoxClass × List Value)) :=
  if stack.length < 2 then none else
  match stack.getLast?, stack.dropLast.getLast? with
  | some (Value.classRef subclass), some (Value.classRef superclass) =>
    let methods := (derefClass heap superclass).methods
    let sub := derefClass heap subclass
    some (.ok (heap.set subclass ⟨sub.name, methods⟩, stack.dropLast))
  | some _, some _ => some (.error ("Superclass must be a class."))
  | _, _ => none

/-- `Vm::define_method` (vm.rs lines 532-541), executed by the `Method`
instruction: the method closure is on top of the stack and the class below
it; insert the method under its name into the class's table and pop the
method.  (A non-class at depth 1 panics in the source: `none` here.) -/
def define_method (heap : List LoxClass) (stack : List Value) (name : Ref) :
    Option (List LoxClass × List Value) :=
  if stack.length < 2 then none else
  match stack.getLast?, stack.dropLast.getLast? with
  | some method, some (Value.classRef c) =>
    let cl := derefClass heap c
    some (heap.set c ⟨cl.name, (tableInsert cl.methods name method).2⟩,
      stack.dropLast)
  | _, _ => none

/-- The `ObjUpvalue` struct (closure.rs): a stack location while open, and
the captured value in `closed` once closed. -/
structure ObjUpvalue where
  location : Nat
  closed : Option Value
deriving DecidableEq, Repr

/-- `Allocator::deref` for an upvalue handle. -/
def derefUpvalue (heap : List ObjUpvalue) (r : Ref) : ObjUpvalue :=
  (heap.get? r).getD ⟨0, none⟩

/-- The location field seen through an upvalue handle. -/
def uvLocation (heap : List ObjUpvalue) (r : Ref) : Nat :=
  (derefUpvalue heap r).location

/-- `Vm::capture_upvalue` (vm.rs lines 504-515): scan the open-upvalue
list for one whose location equals `location` and share it; otherwise
allocate a new open upvalue at that location and append its handle to the
open list. -/
def capture_upvalue (heap : List ObjUpvalue) (opens : List Ref)
    (location : Nat) : Ref × List ObjUpvalue × List Ref :=
  match opens.find? (fun r => uvLocation heap r == location) with
  | some r => (r, heap, opens)
  | none => (heap.length, heap ++ [⟨location, none⟩], opens ++ [heap.length])

/-- The value read by the `GetUpvalue` arm of `Vm::run` (vm.rs lines
259-270): the closed value if the upvalue is closed, else the stack slot
it points to. -/
def read_upvalue (heap : List ObjUpvalue) (stack : List Value) (r : Ref) :
    Value :=
  match (derefUpvalue heap r).closed with
  | some v => v
  | none => (stack.get? (derefUpvalue heap r).location).getD .nil

/-- The `GetUpvalue` arm pushes the value read through the upvalue. -/
def runGetUpvalue (heap : List ObjUpvalue) (stack : List Value) (r : Ref) :
    List Value :=
  push stack (read_upvalue heap stack r)

/-- The `SetUpvalue` arm of `Vm::run` (vm.rs lines 365-374): peek the
value and write it through the upvalue — into the stack slot while open,
into the `closed` cell once closed.  The value stays on the stack. -/
def runSetUpvalue (heap : List ObjUpvalue) (stack : List Value) (r : Ref) :
    List ObjUpvalue × List Value :=
  let uv := derefUpvalue heap r
  let v := (stack.getLast?).getD .nil
  match uv.closed with
  | none => (heap, stack.set uv.location v)
  | some _ => (heap.set r ⟨uv.location, some v⟩, stack)

/-- The `CallFrame` struct (vm.rs lines 584-588). -/
structure CallFrame where
  closure : Ref
  ip : Nat
  slot : Nat
deriving DecidableEq, Repr

/-- The VM state touched by the `Return` instruction: the value stack, the
call frames, the open-upvalue list and the upvalue heap. -/
structure VmState where
  stack : List Value
  frames : List CallFrame
  openUpvalues : List Ref
  upvalHeap : List ObjUpvalue
deriving DecidableEq, Repr

/-- Reading `self.stack[i]`. -/
def stackAt (stack : List Value) (i : Nat) : Value :=
  (stack.get? i).getD .nil

/-- `Vm::close_upvalues` (vm.rs lines 516-530): walk the open-upvalue
list; every upvalue whose location is at least `last` is removed from the
list and its `closed` cell is set to the value currently at its stack
location; the others stay, in order. -/
def close_upvalues (stack : List Value) (last : Nat) :
    List ObjUpvalue → List Ref → List ObjUpvalue × List Ref
  | heap, [] => (heap, [])
  | heap, r :: rest =>
    let uv := derefUpvalue heap r
    if last ≤ uv.location then
      close_upvalues stack last
        (heap.set r ⟨uv.location, some (stackAt stack uv.location)⟩) rest
    else
      let p := close_upvalues stack last heap rest
      (p.1, r :: p.2)

/-- Result of executing `Return`: the interpreter either stops (`Ok(())`
returned from `Vm::run`) or continues with the new state. -/
inductive ReturnResult where
  | halt (st : VmState)
  | next (st : VmState)
deriving DecidableEq, Repr

/-- The `Instruction::Return` arm of `Vm::run` (vm.rs lines 326-337): pop
the frame, pop the return value, close the upvalues at or above the
frame's slot base; if no frames remain, stop; otherwise truncate the stack
to the slot base and push the return value. -/
def runReturn (st : VmState) : Option ReturnResult :=
  match st.frames.getLast? with
  | none => none
  | some frame =>
    let frames2 := st.frames.dropLast
    match st.stack.getLast? with
    | none => none
    | some retVal =>
      let stack2 := st.stack.dropLast
      let p := close_upvalues stack2 frame.slot st.upvalHeap st.openUpvalues
      if frames2.isEmpty then
        some (.halt ⟨stack2, frames2, p.2, p.1⟩)
      else
        some (.next ⟨push (stack2.take frame.slot) retVal, frames2, p.2, p.1⟩)

/-- The `Instruction` enum of chunk.rs.  Byte and two-byte operands are
embedded as `Nat`. -/
inductive Instruction where
  | Add
  | Call (argCount : Nat)
  | Class (constant : Nat)
  | CloseUpvalue
  | Closure (constant : Nat)
  | Constant (constant : Nat)
  | DefineGlobal (constant : Nat)
  | Divide
  | Equal
  | False
  | GetGlobal (constant : Nat)
  | GetLocal (slot : Nat)
  | GetProperty (constant : Nat)
  | GetSuper (constant : Nat)
  | GetUpvalue (slot : Nat)
  | Greater
  | Inherit
  | Invoke (constant argCount : Nat)
  | Jump (offset : Nat)
  | JumpIfFalse (offset : Nat)
  | Less
  | Loop (offset : Nat)
  | Method (constant : Nat)
  | Multiply
  | Negate
  | Nil
  | Not
  | Pop
  | Print
  | Return
  | SetGlobal (constant : Nat)
  | SetLocal (slot : Nat)
  | SetProperty (constant : Nat)
  | SetUpvalue (slot : Nat)
  | Substract
  | SuperInvoke (constant argCount : Nat)
  | True
deriving DecidableEq, Repr

/-- The VM state live while a single-frame chunk executes straight-line
instructions: the current chunk's code and constants, the value stack,
the frame's instruction pointer and the frame's slot base
(`current_frame().slot`; the script frame pushed by `Vm::interpret` has
slot base 0). -/
structure MiniVm where
  code : List Instruction
  constants : List Value
  stack : List Value
  ip : Nat
  slot : Nat
deriving DecidableEq, Repr

/-- The fetch-advance-dispatch loop of `Vm::run` (vm.rs lines 121-387)
restricted to the instructions a single-frame straight-line chunk reaches
before its first `Add`, `Pop` or `Return`: `Constant` reads the constant
and pushes it through the unchecked `Vm::push`; `GetLocal` reads the
stack at `slot + current_frame().slot` (vm.rs lines 227-231) and pushes
it; `Nil`, `True` and `False` push literals; `Pop` pops.  Indexing that
would panic in the source is `none` here. -/
def runStepMini (vm : MiniVm) : Option MiniVm :=
  match vm.code.get? vm.ip with
  | some (.Constant c) =>
    match vm.constants.get? c with
    | some value =>
      some ⟨vm.code, vm.constants, push vm.stack value, vm.ip + 1, vm.slot⟩
    | none => none
  | some (.GetLocal s) =>
    match vm.stack.get? (s + vm.slot) with
    | some value =>
      some ⟨vm.code, vm.constants, push vm.stack value, vm.ip + 1, vm.slot⟩
    | none => none
  | some .Nil =>
    some ⟨vm.code, vm.constants, push vm.stack .nil, vm.ip + 1, vm.slot⟩
  | some .True =>
    some ⟨vm.code, vm.constants, push vm.stack (.bool true), vm.ip + 1, vm.slot⟩
  | some .False =>
    some ⟨vm.code, vm.constants, push vm.stack (.bool false), vm.ip + 1, vm.slot⟩
  | some .Pop =>
    match popValue vm.stack with
    | some pv => some ⟨vm.code, vm.constants, pv.2, vm.ip + 1, vm.slot⟩
    | none => none
  | _ => none

/-- Iterate `runStepMini`. -/
def runSteps (vm : MiniVm) : Nat → Option MiniVm
  | 0 => some vm
  | n + 1 =>
    match runStepMini vm with
    | some vm2 => runSteps vm2 n
    | none => none

/-- `Vm::MAX_FRAMES` (vm.rs line 24). -/
def MAX_FRAMES : Nat := 64

/-- `Vm::STACK_SIZE` (vm.rs line 25): `MAX_FRAMES * u8::MAX + 1`.  It is
only the initial capacity of the value-stack vector, not a bound. -/
def STACK_SIZE : Nat := MAX_FRAMES * 255 + 1

/-- `Vm::call` (vm.rs lines 426-442): arity check, then frame-depth check
("Stack overflow." when MAX_FRAMES frames already exist), then push a
frame whose slot base is `stack_len - arg_count - 1`. -/
def call (frames : List CallFrame) (stackLen : Nat) (closureRef : Ref)
    (arity argCount : Nat) : Except String (List CallFrame) :=
  if argCount ≠ arity then
    .error ("Expected " ++ toString arity ++ " arguments but got " ++
      toString argCount ++ ".")
  else if frames.length = MAX_FRAMES then .error ("Stack overflow.")
  else .ok (frames ++ [⟨closureRef, 0, stackLen - argCount - 1⟩])

/-- The VM state at the final `Return` of a top-level script: one frame
with slot base 0, the script function value left at slot 0 by
`Vm::interpret`, and the implicit `nil` return value on top. -/
def c2state : VmState :=
  ⟨[Value.function 0, Value.nil], [⟨0, 5, 0⟩], [], []⟩

/-- The start of the single-frame execution of the script
`{ var a = 1; print a + (a + (a + ...)); }` with 16384 nested additions:
the literal `1` is the chunk's only pool constant — a local declared at
scope depth > 0 adds nothing to the pool (`parse_variable` returns 0
without calling `identifier_constant`), and every read of `a` resolves to
the local at slot 1 (slot 0 is the compiler's reserved placeholder) and
emits `GetLocal(1)` — so the emitted code begins with `Constant(0)`
followed by 16385 `GetLocal(1)` instructions, of which the first 16384
are modelled here.  The machine starts on the initial stack of
`Vm::interpret` (the script function value at slot 0) with the script
frame's slot base 0. -/
def c7vm : MiniVm :=
  ⟨Instruction.Constant 0 :: List.replicate 16384 (Instruction.GetLocal 1),
    [Value.number 1], [Value.function 0], 0, 0⟩

/-! ## Theorems -/

theorem find?_append_of_none {α : Type} (l1 l2 : List α) (p : α → Bool)
    (h : l1.find? p = none) : (l1 ++ l2).find? p = l2.find? p := by
  induction l1 with
  | nil => simp
  | cons x xs ih =>
    simp only [List.cons_append]
    cases hx : p x with
    | true => rw [List.find?_cons_of_pos _ hx] at h; exact absurd h (by simp)
    | false =>
      have hx2 : ¬ p x = true := by simp [hx]
      rw [List.find?_cons_of_neg _ hx2] at h
      rw [List.find?_cons_of_neg _ hx2]
      exact ih h

theorem popValue_concat (l : List Value) (v : Value) :
    popValue (l ++ [v]) = some (v, l) := by
  simp [popValue, List.getLast?_concat, List.dropLast_concat]

/-- Interning is stable: once contents are in the table, a later intern of
equal contents returns the identical handle and leaves the allocator
unchanged. -/
theorem intern_stable (a : StringAllocator) (s : String) :
    StringAllocator.intern (a.intern s).2 s = ((a.intern s).1, (a.intern s).2) := by
  cases h : a.lookup s with
  | some r =>
    simp [StringAllocator.intern, h]
  | none =>
    have hfind : a.strings.find? (fun p => p.1 == s) = none := by
      by_contra hne
      rcases Option.ne_none_iff_exists.mp hne with ⟨pr, hpr⟩
      simp [StringAllocator.lookup, ← hpr] at h
    have hlook2 :
        StringAllocator.lookup
          ⟨a.objects ++ [s], a.strings ++ [(s, a.objects.length)]⟩ s =
          some a.objects.length := by
      simp [StringAllocator.lookup, find?_append_of_none _ _ _ hfind, List.find?]
    simp [StringAllocator.intern, StringAllocator.allocString, h, hlook2]

/-- C1: executing `Add` pops `b` then `a`; on two numbers it pushes their
sum; on two strings it pushes the interned string whose contents are the
contents of `a` followed by the contents of `b`; on any other pair it
raises "Operands must be two numbers or two strings." (after restoring the
operands to the stack); and interning is stable, so repeated
concatenations with equal contents yield the identical handle. -/
theorem add_spec (alloc : StringAllocator) (rest : List Value) (a b : Value) :
    (∀ x y, a = .number x → b = .number y →
      runAdd alloc (rest ++ [a, b]) =
        some (.ok alloc (rest ++ [.number (x + y)]))) ∧
    (∀ ha hb, a = .string ha → b = .string hb →
      runAdd alloc (rest ++ [a, b]) =
        some (.ok (alloc.intern (alloc.deref ha ++ alloc.deref hb)).2
          (rest ++ [.string (alloc.intern (alloc.deref ha ++ alloc.deref hb)).1]))) ∧
    ((∀ x y, ¬(a = .number x ∧ b = .number y)) →
     (∀ ha hb, ¬(a = .string ha ∧ b = .string hb)) →
      runAdd alloc (rest ++ [a, b]) =
        some (.runtimeError alloc (rest ++ [a, b])
          ("Operands must be two numbers or two strings."))) ∧
    (∀ s, (StringAllocator.intern (alloc.intern s).2 s).1 = (alloc.intern s).1) := by
  have h1 : popValue (rest ++ [a, b]) = some (b, rest ++ [a]) := by
    have h2 : rest ++ [a, b] = (rest ++ [a]) ++ [b] := by simp
    rw [h2, popValue_concat]
  refine ⟨?_, ?_, ?_, ?_⟩
  · rintro x y rfl rfl
    simp only [runAdd, h1, popValue_concat, push]
  · rintro ha hb rfl rfl
    simp only [runAdd, h1, popValue_concat, push]
  · intro hnum hstr
    cases a <;> cases b <;>
      simp only [runAdd, h1, popValue_concat, push] <;>
      first
        | exact absurd ⟨rfl, rfl⟩ (hnum _ _)
        | exact absurd ⟨rfl, rfl⟩ (hstr _ _)
        | simp
  · intro s
    rw [intern_stable]

/-- Witness for `add_spec`: in an allocator holding the interned strings
"foo" (handle 0) and "bar" (handle 1), adding them pushes a handle to the
freshly interned "foobar". -/
theorem add_spec_witness :
    runAdd ⟨["foo", "bar"], [("foo", 0), ("bar", 1)]⟩
        [Value.string 0, Value.string 1] =
      some (.ok ⟨["foo", "bar", "foobar"], [("foo", 0), ("bar", 1), ("foobar", 2)]⟩
        [Value.string 2]) := by
  have h := (add_spec ⟨["foo", "bar"], [("foo", 0), ("bar", 1)]⟩ []
    (.string 0) (.string 1)).2.1 0 1 rfl rfl
  exact h.trans (by decide)

/-- C5: for every value, chunk.rs `Value::is_falsey` is true exactly on
`Nil` and `Bool(false)`; but the early main.rs `Value::is_falsy` also
returns true on `Number(0)` (indeed on every number), so there numbers are
falsey, contradicting the claim that only `Nil` and `Bool(false)` are. -/
theorem falsiness_bug :
    (∀ v : Value, v.is_falsey = true ↔ (v = .nil ∨ v = .bool false)) ∧
    MainValue.is_falsy (.number 0) = true ∧
    Value.is_falsey (.number 0) = false := by
  refine ⟨fun v => ?_, rfl, rfl⟩
  cases v <;> simp [Value.is_falsey]

/-- C8: the exit-code mapping coded in main.rs disagrees with the claim on
success and on compile errors: `run_file` exits with 65 when
interpretation succeeds and with 70 when compilation fails (the claim, and
tests/integration.rs, require 0 and 65 respectively).  The unreadable-file
code 74 and the bad-usage code 64 do match the claim. -/
theorem exit_code_bug :
    run_file_exit (.ok ()) = 65 ∧
    run_file_exit (.error .compileError) = 70 ∧
    run_file_exit (.error .runtimeError) = 70 ∧
    run_file_code (.error ()) (fun _ => .ok ()) = 74 ∧
    main_dispatch 3 0 = .exitWith 64 ∧
    main_dispatch 4 0 = .exitWith 64 := by
  refine ⟨rfl, rfl, rfl, rfl, rfl, rfl⟩

/-- C6 counterexample: with 255 constants already in the pool, adding one
more does not report "Too many constants in one chunk." and the pool
reaches 256 constants, so the pool is not limited to 255 constants as
claimed: the real limit is 256 (single-byte indices 0 through 255). -/
theorem constant_limit_counterexample :
    (make_constant (List.replicate 255 Value.nil) Value.nil).errorReported = false ∧
    (make_constant (List.replicate 255 Value.nil) Value.nil).constants.length = 256 := by
  constructor <;> decide

/-- C6 (amended): a chunk's constants are indexed by a single byte, so the
limit is 256 constants (indices 0 through 255).  `make_constant` reports
"Too many constants in one chunk." exactly when the pool already holds 256
or more constants; the emitted index never exceeds 255 (it is the new
constant's position on success and 0 after the error), so no emitted
instruction refers to an index beyond the single-byte limit; and the value
is appended to the pool in every case. -/
theorem make_constant_spec (constants : List Value) (v : Value) :
    ((make_constant constants v).errorReported = true ↔ 256 ≤ constants.length) ∧
    (make_constant constants v).index ≤ 255 ∧
    ((make_constant constants v).errorReported = true →
      (make_constant constants v).index = 0) ∧
    ((make_constant constants v).errorReported = false →
      (make_constant constants v).index = constants.length) ∧
    (make_constant constants v).constants = constants ++ [v] := by
  unfold make_constant add_constant
  by_cases h : constants.length ≤ 255 <;>
    simp [h] <;> omega

/-- Witness for `make_constant_spec` at the empty pool. -/
theorem make_constant_spec_witness :
    (make_constant [] Value.nil).index = 0 :=
  (make_constant_spec [] Value.nil).2.2.2.1 (by decide)

theorem tableGet_none_iff (t : List (Ref × Value)) (k : Ref) :
    tableGet t k = none ↔ ∀ p ∈ t, p.1 ≠ k := by
  simp [tableGet, List.find?_eq_none]

theorem tableInsert_absent (t : List (Ref × Value)) (k : Ref) (v : Value)
    (h : ∀ p ∈ t, p.1 ≠ k) : tableInsert t k v = (none, t ++ [(k, v)]) := by
  induction t with
  | nil => rfl
  | cons q rest ih =>
    have hq : q.1 ≠ k := h q (by simp)
    have hrest : ∀ p ∈ rest, p.1 ≠ k := fun p hp => h p (by simp [hp])
    obtain ⟨k2, v2⟩ := q
    simp only [tableInsert, if_neg hq, ih hrest]
    rfl

theorem tableRemove_restore (t : List (Ref × Value)) (k : Ref) (v : Value)
    (h : ∀ p ∈ t, p.1 ≠ k) : tableRemove (t ++ [(k, v)]) k = t := by
  simp only [tableRemove, List.filter_append]
  have h1 : t.filter (fun p => p.1 != k) = t :=
    List.filter_eq_self.mpr (fun p hp => by simpa using h p hp)
  have h2 : [(k, v)].filter (fun p => p.1 != k) = ([] : List (Ref × Value)) := by
    simp
  rw [h1, h2, List.append_nil]

/-- C10: executing `SetGlobal` on a name that is not currently defined in
the globals table raises "Undefined variable '<name>'." and leaves the
globals table exactly as it was: the entry inserted by the attempted
assignment is removed again before the error is raised, so a failed
global assignment never defines the name.  The stack is unchanged (the
value is peeked, not popped). -/
theorem set_global_undefined_spec (alloc : StringAllocator)
    (globals : List (Ref × Value)) (pre : List Value) (v : Value) (name : Ref)
    (habsent : tableGet globals name = none) :
    runSetGlobal alloc globals (pre ++ [v]) name =
      some ⟨globals, pre ++ [v],
        some (undefinedVariableMsg (alloc.deref name))⟩ := by
  have h := (tableGet_none_iff globals name).mp habsent
  have hins := tableInsert_absent globals name v h
  have hrem := tableRemove_restore globals name v h
  simp only [runSetGlobal, List.getLast?_concat, hins, hrem]

/-- Witness for `set_global_undefined_spec`: the interned name "x" is not
defined, so the assignment errors and the empty globals table stays
empty. -/
theorem set_global_undefined_spec_witness :
    runSetGlobal ⟨["x"], [("x", 0)]⟩ [] [Value.bool true] 0 =
      some ⟨[], [Value.bool true], some (undefinedVariableMsg "x")⟩ := by
  have h := set_global_undefined_spec ⟨["x"], [("x", 0)]⟩ [] [] (Value.bool true)
    0 (by decide)
  exact h.trans (by decide)

/-- C4: executing `Inherit` with the subclass at stack depth 0 and a class
at depth 1 replaces the subclass's methods table with a snapshot clone of
the superclass's table as of that moment and pops the subclass; a later
method definition on the superclass leaves the subclass's table at the
snapshot; and a non-class value at depth 1 raises "Superclass must be a
class.". -/
theorem inherit_spec (heap : List LoxClass) (pre : List Value)
    (subclass superclass : Ref)
    (hsub : subclass < heap.length)
    (hne : subclass ≠ superclass) :
    (runInherit heap (pre ++ [.classRef superclass, .classRef subclass]) =
      some (.ok
        (heap.set subclass
          ⟨(derefClass heap subclass).name, (derefClass heap superclass).methods⟩,
         pre ++ [.classRef superclass]))) ∧
    (derefClass
        (heap.set subclass
          ⟨(derefClass heap subclass).name, (derefClass heap superclass).methods⟩)
        subclass).methods = (derefClass heap superclass).methods ∧
    (∀ (pre2 : List Value) (mval : Value) (mname : Ref)
        (heap2 : List LoxClass) (stack2 : List Value),
      define_method
          (heap.set subclass
            ⟨(derefClass heap subclass).name, (derefClass heap superclass).methods⟩)
          (pre2 ++ [.classRef superclass, mval]) mname = some (heap2, stack2) →
      (derefClass heap2 subclass).methods = (derefClass heap superclass).methods) ∧
    (∀ w, (∀ c, w ≠ .classRef c) →
      runInherit heap (pre ++ [w, .classRef subclass]) =
        some (.error ("Superclass must be a class."))) := by
  have hsplit : ∀ (x y : Value), pre ++ [x, y] = (pre ++ [x]) ++ [y] := by
    intro x y; simp
  have hlast : ∀ (x y : Value), (pre ++ [x, y]).getLast? = some y := by
    intro x y; rw [hsplit, List.getLast?_concat]
  have hdrop : ∀ (x y : Value), (pre ++ [x, y]).dropLast = pre ++ [x] := by
    intro x y; rw [hsplit, List.dropLast_concat]
  have hlen : ∀ (x y : Value), ¬ ((pre ++ [x, y]).length < 2) := by
    intro x y
    simp only [List.length_append, List.length_cons, List.length_nil]
    omega
  have hset : derefClass
      (heap.set subclass
        ⟨(derefClass heap subclass).name, (derefClass heap superclass).methods⟩)
      subclass =
      ⟨(derefClass heap subclass).name, (derefClass heap superclass).methods⟩ := by
    unfold derefClass
    rw [List.get?_set_eq_of_lt _ hsub]
    rfl
  refine ⟨?_, ?_, ?_, ?_⟩
  · simp only [runInherit, if_neg (hlen _ _), hlast, hdrop, List.getLast?_concat]
  · rw [hset]
  · intro pre2 mval mname heap2 stack2 hdm
    have hlast2 : (pre2 ++ [Value.classRef superclass, mval]).getLast? = some mval := by
      have : pre2 ++ [Value.classRef superclass, mval] =
          (pre2 ++ [Value.classRef superclass]) ++ [mval] := by simp
      rw [this, List.getLast?_concat]
    have hdrop2 : (pre2 ++ [Value.classRef superclass, mval]).dropLast =
        pre2 ++ [Value.classRef superclass] := by
      have : pre2 ++ [Value.classRef superclass, mval] =
          (pre2 ++ [Value.classRef superclass]) ++ [mval] := by simp
      rw [this, List.dropLast_concat]
    have hlen2 : ¬ ((pre2 ++ [Value.classRef superclass, mval]).length < 2) := by
      simp
    simp only [define_method, if_neg hlen2, hlast2, hdrop2,
      List.getLast?_concat, Option.some.injEq, Prod.mk.injEq] at hdm
    obtain ⟨hheap2, _⟩ := hdm
    subst hheap2
    unfold derefClass
    rw [List.get?_set_ne _ _ (fun he => hne he.symm)]
    have := congrArg LoxClass.methods hset
    simpa [derefClass] using this
  · intro w hw
    have hlen3 : ¬ ((pre ++ [w, Value.classRef subclass]).length < 2) := hlen _ _
    cases w <;>
      first
        | exact absurd rfl (hw _)
        | simp only [runInherit, if_neg hlen3, hlast, hdrop, List.getLast?_concat]

/-- Witness for `inherit_spec`: class 0 inherits the single method of
class 1; the subclass is popped and its table becomes the snapshot. -/
theorem inherit_spec_witness :
    runInherit [⟨0, []⟩, ⟨1, [(5, Value.closure 0)]⟩]
        [Value.classRef 1, Value.classRef 0] =
      some (.ok ([⟨0, [(5, Value.closure 0)]⟩, ⟨1, [(5, Value.closure 0)]⟩],
        [Value.classRef 1])) := by
  have h := (inherit_spec [⟨0, []⟩, ⟨1, [(5, Value.closure 0)]⟩] [] 0 1
    (by decide) (by decide)).1
  exact h.trans (by rfl)

theorem uvLocation_append (heap : List ObjUpvalue) (u : ObjUpvalue) (r : Ref)
    (hr : r < heap.length) : uvLocation (heap ++ [u]) r = uvLocation heap r := by
  unfold uvLocation derefUpvalue
  rw [List.get?_append hr]

theorem uvLocation_concat (heap : List ObjUpvalue) (u : ObjUpvalue) :
    uvLocation (heap ++ [u]) heap.length = u.location := by
  unfold uvLocation derefUpvalue
  rw [List.get?_concat_length]
  rfl

/-- C3: `capture_upvalue` shares the already-listed open upvalue whose
location matches and otherwise appends a fresh one, so it preserves the
at-most-one-open-upvalue-per-slot invariant, and capturing the same slot
again returns the identical handle.  Two closures holding that shared
handle observe each other's writes: a `SetUpvalue` through the handle is
seen by a `GetUpvalue` through the same handle while the upvalue is open
(via the stack slot) and equally once it is closed (via the `closed`
cell), where the closed value also stays readable as it was stored. -/
theorem upvalue_sharing_spec (heap : List ObjUpvalue) (opens : List Ref)
    (loc : Nat) (stack : List Value)
    (hvalid : ∀ r ∈ opens, r < heap.length) :
    (∀ r, opens.find? (fun r2 => uvLocation heap r2 == loc) = some r →
      capture_upvalue heap opens loc = (r, heap, opens)) ∧
    ((∀ r ∈ opens, uvLocation heap r ≠ loc) →
      capture_upvalue heap opens loc =
        (heap.length, heap ++ [⟨loc, none⟩], opens ++ [heap.length])) ∧
    ((opens.map (uvLocation heap)).Nodup →
      (((capture_upvalue heap opens loc).2.2).map
        (uvLocation (capture_upvalue heap opens loc).2.1)).Nodup) ∧
    (capture_upvalue (capture_upvalue heap opens loc).2.1
        (capture_upvalue heap opens loc).2.2 loc =
      capture_upvalue heap opens loc) ∧
    (∀ r uv, heap.get? r = some uv → uv.closed = none →
      uv.location < stack.length →
      read_upvalue (runSetUpvalue heap stack r).1 (runSetUpvalue heap stack r).2 r
        = (stack.getLast?).getD .nil) ∧
    (∀ r uv w, heap.get? r = some uv → uv.closed = some w →
      read_upvalue heap stack r = w ∧
      read_upvalue (runSetUpvalue heap stack r).1 (runSetUpvalue heap stack r).2 r
        = (stack.getLast?).getD .nil) := by
  refine ⟨?_, ?_, ?_, ?_, ?_, ?_⟩
  · intro r hr
    simp only [capture_upvalue, hr]
  · intro hno
    have hfind : opens.find? (fun r2 => uvLocation heap r2 == loc) = none := by
      apply List.find?_eq_none.mpr
      intro x hx
      simpa using hno x hx
    simp only [capture_upvalue, hfind]
  · intro hnodup
    cases hf : opens.find? (fun r2 => uvLocation heap r2 == loc) with
    | some r =>
      simp only [capture_upvalue, hf]
      exact hnodup
    | none =>
      simp only [capture_upvalue, hf]
      have hmap : (opens ++ [heap.length]).map (uvLocation (heap ++ [⟨loc, none⟩])) =
          opens.map (uvLocation heap) ++ [loc] := by
        rw [List.map_append]
        congr 1
        · exact List.map_eq_map_iff.mpr
            (fun r hr => uvLocation_append heap _ r (hvalid r hr))
        · simp [uvLocation_concat]
      rw [hmap]
      have hnotmem : loc ∉ opens.map (uvLocation heap) := by
        intro hmem
        rcases List.mem_map.mp hmem with ⟨r, hr, hloc⟩
        have hfr := List.find?_eq_none.mp hf r hr
        simp [hloc] at hfr
      simp only [List.nodup_append, List.nodup_cons, List.not_mem_nil,
        not_false_eq_true, List.nodup_nil, and_true, List.disjoint_singleton]
      exact ⟨hnodup, trivial, hnotmem⟩
  · cases hf : opens.find? (fun r2 => uvLocation heap r2 == loc) with
    | some r =>
      simp only [capture_upvalue, hf]
    | none =>
      simp only [capture_upvalue, hf]
      have hnone2 : opens.find?
          (fun r2 => uvLocation (heap ++ [⟨loc, none⟩]) r2 == loc) = none := by
        apply List.find?_eq_none.mpr
        intro x hx
        rw [uvLocation_append heap _ x (hvalid x hx)]
        simpa using List.find?_eq_none.mp hf x hx
      have hfound : (opens ++ [heap.length]).find?
          (fun r2 => uvLocation (heap ++ [⟨loc, none⟩]) r2 == loc) =
          some heap.length := by
        rw [find?_append_of_none _ _ _ hnone2]
        simp [List.find?, uvLocation_concat]
      simp only [capture_upvalue, hfound]
  · intro r uv huv hclosed hlt
    have hset : runSetUpvalue heap stack r =
        (heap, stack.set uv.location ((stack.getLast?).getD .nil)) := by
      simp only [runSetUpvalue, derefUpvalue, huv, Option.getD_some, hclosed]
    rw [hset]
    simp only [read_upvalue, derefUpvalue, huv, Option.getD_some, hclosed]
    rw [List.get?_set_eq_of_lt _ hlt]
    rfl
  · intro r uv w huv hclosed
    obtain ⟨hrlt, -⟩ := List.get?_eq_some.mp huv
    constructor
    · simp only [read_upvalue, derefUpvalue, huv, Option.getD_some, hclosed]
    · have hset : runSetUpvalue heap stack r =
          (heap.set r ⟨uv.location, some ((stack.getLast?).getD .nil)⟩, stack) := by
        simp only [runSetUpvalue, derefUpvalue, huv, Option.getD_some, hclosed]
      rw [hset]
      simp only [read_upvalue, derefUpvalue]
      rw [List.get?_set_eq_of_lt _ hrlt]
      rfl

/-- Witness for `upvalue_sharing_spec`: no open upvalue points at slot 1,
so capturing slot 1 allocates handle 1 and appends it to the open list. -/
theorem upvalue_sharing_spec_witness :
    capture_upvalue [⟨0, none⟩] [0] 1 = (1, [⟨0, none⟩, ⟨1, none⟩], [0, 1]) := by
  have h := (upvalue_sharing_spec [⟨0, none⟩] [0] 1 [] (by decide)).2.1 (by decide)
  exact h.trans (by decide)

theorem close_upvalues_cons (stack : List Value) (last : Nat)
    (heap : List ObjUpvalue) (r : Ref) (rest : List Ref) :
    close_upvalues stack last heap (r :: rest) =
      if last ≤ uvLocation heap r then
        close_upvalues stack last
          (heap.set r ⟨uvLocation heap r, some (stackAt stack (uvLocation heap r))⟩)
          rest
      else
        ((close_upvalues stack last heap rest).1,
          r :: (close_upvalues stack last heap rest).2) := rfl

theorem uvLocation_set_closed (heap : List ObjUpvalue) (r : Ref) (v : Value)
    (hr : r < heap.length) :
    ∀ r2, uvLocation (heap.set r ⟨uvLocation heap r, some v⟩) r2 =
      uvLocation heap r2 := by
  intro r2
  by_cases h : r = r2
  · subst h
    unfold uvLocation derefUpvalue
    rw [List.get?_set_eq_of_lt _ hr]
    rfl
  · unfold uvLocation derefUpvalue
    rw [List.get?_set_ne _ _ h]

/-- Characterization of `Vm::close_upvalues`: the surviving open list is
the sublist whose locations are below the threshold (in order), the heap
keeps its length, every open upvalue at or above the threshold is closed
over the value currently at its stack location, and every other heap cell
is untouched. -/
theorem close_upvalues_spec (stack : List Value) (last : Nat) :
    ∀ (opens : List Ref) (heap : List ObjUpvalue),
      (∀ r ∈ opens, r < heap.length) →
      (close_upvalues stack last heap opens).2 =
          opens.filter (fun r => decide (uvLocation heap r < last)) ∧
      (close_upvalues stack last heap opens).1.length = heap.length ∧
      (∀ r ∈ opens, last ≤ uvLocation heap r →
        (close_upvalues stack last heap opens).1.get? r =
          some ⟨uvLocation heap r, some (stackAt stack (uvLocation heap r))⟩) ∧
      (∀ r, (r ∉ opens ∨ uvLocation heap r < last) →
        (close_upvalues stack last heap opens).1.get? r = heap.get? r) := by
  intro opens
  induction opens with
  | nil =>
    intro heap _
    exact ⟨rfl, rfl, by simp, fun r _ => rfl⟩
  | cons r0 rest ih =>
    intro heap hvalid
    have hr0 : r0 < heap.length := hvalid r0 (by simp)
    by_cases hc : last ≤ uvLocation heap r0
    · set heap2 := heap.set r0
        ⟨uvLocation heap r0, some (stackAt stack (uvLocation heap r0))⟩ with hheap2
      have hlen2 : heap2.length = heap.length := List.length_set _ _ _
      have hloc2 : ∀ r2, uvLocation heap2 r2 = uvLocation heap r2 :=
        uvLocation_set_closed heap r0 _ hr0
      have hvalid2 : ∀ r ∈ rest, r < heap2.length := by
        intro r hr
        rw [hlen2]
        exact hvalid r (by simp [hr])
      obtain ⟨ih1, ih2, ih3, ih4⟩ := ih heap2 hvalid2
      have heq : close_upvalues stack last heap (r0 :: rest) =
          close_upvalues stack last heap2 rest := by
        rw [close_upvalues_cons, if_pos hc]
      refine ⟨?_, ?_, ?_, ?_⟩
      · have hneg : (decide (uvLocation heap r0 < last)) = false := by
          simp only [decide_eq_false_iff_not, not_lt]
          exact hc
        rw [heq, ih1, List.filter_cons, hneg]
        simp only [Bool.false_eq_true, if_false]
        exact List.filter_congr (fun r _ => by rw [hloc2])
      · rw [heq, ih2, hlen2]
      · intro r hr hge
        rw [heq]
        rcases List.mem_cons.mp hr with hreq | hrmem
        · rw [hreq] at hge ⊢
          by_cases hmem : r0 ∈ rest
          · have hx := ih3 r0 hmem (by rw [hloc2]; exact hge)
            rw [hloc2] at hx
            exact hx
          · have hx := ih4 r0 (Or.inl hmem)
            rw [hx, hheap2, List.get?_set_eq_of_lt _ hr0]
        · have hx := ih3 r hrmem (by rw [hloc2]; exact hge)
          rw [hloc2] at hx
          exact hx
      · intro r hcase
        rw [heq]
        rcases hcase with hnm | hlt
        · have hne : r0 ≠ r := fun he => hnm (by rw [← he]; simp)
          have hnm2 : r ∉ rest := fun hm => hnm (by simp [hm])
          rw [ih4 r (Or.inl hnm2), hheap2, List.get?_set_ne _ _ hne]
        · have hne : r0 ≠ r := by
            intro he
            rw [he] at hc
            omega
          rw [ih4 r (Or.inr (by rw [hloc2]; exact hlt)), hheap2,
            List.get?_set_ne _ _ hne]
    · have hvalid2 : ∀ r ∈ rest, r < heap.length := fun r hr =>
        hvalid r (by simp [hr])
      obtain ⟨ih1, ih2, ih3, ih4⟩ := ih heap hvalid2
      have heq : close_upvalues stack last heap (r0 :: rest) =
          ((close_upvalues stack last heap rest).1,
            r0 :: (close_upvalues stack last heap rest).2) := by
        rw [close_upvalues_cons, if_neg hc]
      refine ⟨?_, ?_, ?_, ?_⟩
      · rw [heq]
        have hpos : decide (uvLocation heap r0 < last) = true := by
          simp only [decide_eq_true_eq]
          omega
        have h2 : ((close_upvalues stack last heap rest).1,
            r0 :: (close_upvalues stack last heap rest).2).2 =
            r0 :: (close_upvalues stack last heap rest).2 := rfl
        rw [h2, List.filter_cons, hpos]
        simp [ih1]
      · rw [heq]
        exact ih2
      · intro r hr hge
        rw [heq]
        rcases List.mem_cons.mp hr with hr | hr
        · subst hr
          exact absurd hge hc
        · exact ih3 r hr hge
      · intro r hcase
        rw [heq]
        rcases hcase with hnm | hlt
        · exact ih4 r (Or.inl (fun hm => hnm (by simp [hm])))
        · exact ih4 r (Or.inr hlt)

/-- C2 counterexample: executing `Return` on the last frame ends execution
without truncating the value stack to the slot base and without pushing
the return value: from the final state of a top-level script (frame slot
base 0, script function value below the `nil` return value) the VM halts
with stack `[Value.function 0]`, while the claim mandates truncation to
slot base 0 followed by the push of the return value, i.e. `[Value.nil]`. -/
theorem return_counterexample :
    runReturn c2state = some (.halt ⟨[Value.function 0], [], [], []⟩) ∧
    [Value.function 0] ≠ ([] : List Value).take 0 ++ [Value.nil] := by
  exact ⟨rfl, by decide⟩

/-- C2 (amended): executing `Return` pops the return value, closes every
open upvalue whose location is at least the returning frame's slot base
(capturing the value currently at that stack location; the open upvalues
below the slot base survive, in order), and pops the call frame.  If that
frame was the last one, execution ends right there: the stack — now
missing only the popped return value — is neither truncated nor
re-extended.  Otherwise the stack is truncated to the slot base and the
return value is pushed. -/
theorem return_spec (st : VmState) (rest : List CallFrame) (frame : CallFrame)
    (pre : List Value) (retVal : Value)
    (hf : st.frames = rest ++ [frame])
    (hs : st.stack = pre ++ [retVal])
    (hvalid : ∀ r ∈ st.openUpvalues, r < st.upvalHeap.length) :
    (rest = [] →
      runReturn st = some (.halt
        ⟨pre, [],
          (close_upvalues pre frame.slot st.upvalHeap st.openUpvalues).2,
          (close_upvalues pre frame.slot st.upvalHeap st.openUpvalues).1⟩)) ∧
    (rest ≠ [] →
      runReturn st = some (.next
        ⟨pre.take frame.slot ++ [retVal], rest,
          (close_upvalues pre frame.slot st.upvalHeap st.openUpvalues).2,
          (close_upvalues pre frame.slot st.upvalHeap st.openUpvalues).1⟩)) ∧
    (close_upvalues pre frame.slot st.upvalHeap st.openUpvalues).2 =
      st.openUpvalues.filter
        (fun r => decide (uvLocation st.upvalHeap r < frame.slot)) ∧
    (∀ r ∈ st.openUpvalues, frame.slot ≤ uvLocation st.upvalHeap r →
      (close_upvalues pre frame.slot st.upvalHeap st.openUpvalues).1.get? r =
        some ⟨uvLocation st.upvalHeap r,
          some (stackAt pre (uvLocation st.upvalHeap r))⟩) := by
  obtain ⟨hc1, -, hc3, -⟩ :=
    close_upvalues_spec pre frame.slot st.openUpvalues st.upvalHeap hvalid
  refine ⟨?_, ?_, hc1, hc3⟩
  · intro hrest
    subst hrest
    simp only [runReturn, hf, hs, List.getLast?_concat, List.dropLast_concat,
      List.isEmpty_nil, if_true]
  · intro hrest
    have hne : (rest.isEmpty) = false := by
      cases rest with
      | nil => exact absurd rfl hrest
      | cons a l => rfl
    simp only [runReturn, hf, hs, List.getLast?_concat, List.dropLast_concat,
      hne, Bool.false_eq_true, if_false, push]

/-- Witness for `return_spec`: a two-frame state returning from the inner
frame (slot base 1); the open upvalue at location 0 is below the slot base
and survives open, the stack is truncated to one slot and the returned
`true` is pushed. -/
theorem return_spec_witness :
    runReturn ⟨[Value.nil, Value.bool true], [⟨0, 0, 0⟩, ⟨1, 3, 1⟩], [0],
        [⟨0, none⟩]⟩ =
      some (.next ⟨[Value.nil, Value.bool true], [⟨0, 0, 0⟩], [0],
        [⟨0, none⟩]⟩) := by
  have h := (return_spec ⟨[Value.nil, Value.bool true], [⟨0, 0, 0⟩, ⟨1, 3, 1⟩],
    [0], [⟨0, none⟩]⟩ [⟨0, 0, 0⟩] ⟨1, 3, 1⟩ [Value.nil] (Value.bool true)
    rfl rfl (by decide)).2.1 (by decide)
  exact h.trans (by decide)

theorem runSteps_succ_of_step (vm : MiniVm) (n : Nat) (vm2 : MiniVm)
    (h : runStepMini vm = some vm2) :
    runSteps vm (n + 1) = runSteps vm2 n := by
  simp only [runSteps, h]

theorem runSteps_getlocal (code : List Instruction) (constants : List Value)
    (v : Value) :
    ∀ (n i : Nat) (stack : List Value),
      stack.get? 1 = some v →
      (∀ k, k < n → code.get? (i + k) = some (Instruction.GetLocal 1)) →
      runSteps ⟨code, constants, stack, i, 0⟩ n =
        some ⟨code, constants, stack ++ List.replicate n v, i + n, 0⟩ := by
  intro n
  induction n with
  | zero =>
    intro i stack hget hcode
    simp [runSteps]
  | succ n ih =>
    intro i stack hget hcode
    have h1lt : 1 < stack.length := (List.get?_eq_some.mp hget).1
    have hcode0 : code.get? i = some (Instruction.GetLocal 1) := by
      have h := hcode 0 (by omega)
      simpa using h
    have hstep : runStepMini ⟨code, constants, stack, i, 0⟩ =
        some ⟨code, constants, stack ++ [v], i + 1, 0⟩ := by
      simp only [runStepMini, hcode0, Nat.add_zero, hget, push]
    have hget2 : (stack ++ [v]).get? 1 = some v := by
      rw [List.get?_append h1lt]
      exact hget
    have hcode2 : ∀ k, k < n →
        code.get? (i + 1 + k) = some (Instruction.GetLocal 1) := by
      intro k hk
      have h := hcode (k + 1) (by omega)
      rw [show i + (k + 1) = i + 1 + k by omega] at h
      exact h
    simp only [runSteps, hstep]
    rw [ih (i + 1) (stack ++ [v]) hget2 hcode2]
    simp only [Option.some.injEq, MiniVm.mk.injEq]
    refine ⟨trivial, trivial, ?_, by omega, trivial⟩
    rw [List.append_assoc]
    rw [List.replicate_succ, List.singleton_append]

/-- C7 counterexample: executing the `Constant(0)` and the first 16384
`GetLocal(1)` instructions of `c7vm` — the prefix of the chunk the
compiler emits for `{ var a = 1; print a + (a + (a + ...)); }`, a
program well within every compile-time limit since its only pool constant
is the literal and local reads emit `GetLocal` — leaves 16386 values on
the value stack of a single frame, exceeding the claimed bound
MAX_FRAMES * 256 = 16384.  `Vm::push` never checks any bound; STACK_SIZE
is only the vector's initial capacity. -/
theorem stack_depth_counterexample :
    runSteps c7vm (16384 + 1) =
      some ⟨Instruction.Constant 0 ::
          List.replicate 16384 (Instruction.GetLocal 1),
        [Value.number 1],
        [Value.function 0, Value.number 1] ++
          List.replicate 16384 (Value.number 1),
        16385, 0⟩ ∧
    ([Value.function 0, Value.number 1] ++
      List.replicate 16384 (Value.number 1)).length = 16386 ∧
    MAX_FRAMES * 256 < 16386 := by
  refine ⟨?_, ?_, by decide⟩
  · have hstep : runStepMini c7vm =
        some ⟨Instruction.Constant 0 ::
            List.replicate 16384 (Instruction.GetLocal 1),
          [Value.number 1], [Value.function 0, Value.number 1], 1, 0⟩ := rfl
    have hget : ([Value.function 0, Value.number 1] : List Value).get? 1 =
        some (Value.number 1) := rfl
    have hcode : ∀ k, k < 16384 →
        (Instruction.Constant 0 ::
          List.replicate 16384 (Instruction.GetLocal 1)).get? (1 + k) =
          some (Instruction.GetLocal 1) := by
      intro k hk
      rw [show 1 + k = k + 1 by omega, List.get?_cons_succ,
        List.get?_eq_getElem?, List.getElem?_replicate]
      simp only [if_pos hk]
    have h := runSteps_getlocal
      (Instruction.Constant 0 :: List.replicate 16384 (Instruction.GetLocal 1))
      [Value.number 1] (Value.number 1) 16384 1
      [Value.function 0, Value.number 1] hget hcode
    rw [runSteps_succ_of_step c7vm 16384 _ hstep, h]
  · rw [List.length_append, List.length_replicate]
    rfl

/-- C7 (amended): the frame stack is bounded: with at most MAX_FRAMES (64)
frames, `Vm::call` raises "Stack overflow." instead of pushing a
sixty-fifth frame, and every successful call keeps the frame count at or
below MAX_FRAMES.  The value stack has no such bound — `Vm::push` always
grows the vector by one (see the counterexample, where the single-frame
execution of a compilable nested-addition chain over one local exceeds
MAX_FRAMES * 256 values). -/
theorem frame_limit_spec (frames : List CallFrame)
    (stackLen closureRef arity argCount : Nat)
    (hle : frames.length ≤ MAX_FRAMES) :
    (frames.length = MAX_FRAMES → argCount = arity →
      call frames stackLen closureRef arity argCount =
        .error ("Stack overflow.")) ∧
    (∀ frames2, call frames stackLen closureRef arity argCount = .ok frames2 →
      frames2.length ≤ MAX_FRAMES) ∧
    (∀ (stack : List Value) (v : Value),
      (push stack v).length = stack.length + 1) := by
  refine ⟨?_, ?_, ?_⟩
  · intro hfull heq
    simp [call, heq, hfull]
  · intro frames2 hok
    unfold call at hok
    by_cases h1 : argCount ≠ arity
    · simp [h1] at hok
    · by_cases h2 : frames.length = MAX_FRAMES
      · simp [h1, h2] at hok
      · simp only [h1, h2, if_neg, if_false, ite_false, Except.ok.injEq] at hok
        have hok2 : frames ++ [(⟨closureRef, 0, stackLen - argCount - 1⟩ : CallFrame)] = frames2 := by
          simpa [h1, h2] using hok
        rw [← hok2]
        simp only [List.length_append, List.length_cons, List.length_nil]
        unfold MAX_FRAMES at *
        omega
  · intro stack v
    simp [push]

/-- Witness for `frame_limit_spec`: with 64 frames live, a further
(arity-correct) call errors with "Stack overflow.". -/
theorem frame_limit_spec_witness :
    call (List.replicate 64 (⟨0, 0, 0⟩ : CallFrame)) 0 0 0 0 =
      .error ("Stack overflow.") :=
  (frame_limit_spec (List.replicate 64 ⟨0, 0, 0⟩) 0 0 0 0 (by decide)).1
    (by decide) rfl

end Loxido
